import Mathlib

/-!
Verification of `AggregateFunctionGroupUniqArray.h` (fixed-width and generic
unique-value aggregators) and of the copy-on-write pointer primitive
(`COWPtr` / `COWPtrHelper`).

Shallow embedding conventions:
* The hash sets (`HashSet<T>` for the fixed-width aggregator,
  `HashSetWithSavedHash<StringRef>` for the generic one) are modelled as
  lists of pairwise-distinct elements kept in insertion order; insertion of
  a present element is a no-op, of a new element an append.  Iteration order
  of the real open-addressing table is implementation defined, so any fixed
  order is a faithful model of the spec's "internal iteration order".
* The arena is an append-only byte pool modelled as the list of its payload
  bytes; `rollback n` drops the last `n` bytes (bump-pointer semantics).
* Bytes are `Nat`s; a fixed-width value of byte width `w` is a `Nat` below
  `256 ^ w`.
* The binary read/write primitives (`writeVarUInt`, `writeIntBinary`,
  `writeStringBinary`, `readVarUInt`, `readStringBinaryInto`, the hash
  table's `read`) live in headers that are not part of this source tree;
  they are modelled from the spec (little-endian base-128 varint,
  raw little-endian fixed-width bytes, varint-length-prefixed strings,
  failure on truncated input).  Definitions carrying such a model say so in
  their doc comment.
-/

namespace GroupUniq

/-! ### Hash-set model -/

/-- Insertion into the hash set: no-op when the element is present,
append otherwise (models `HashSet::insert` / `emplace`). -/
def hsInsert {α : Type} [DecidableEq α] (s : List α) (x : α) : List α :=
  if x ∈ s then s else s ++ [x]

/-- Insert every element of `xs` into `s`, in order. -/
def hsInsertMany {α : Type} [DecidableEq α] (s : List α) (xs : List α) : List α :=
  xs.foldl hsInsert s

/-! ### Fixed-width aggregator: state and operations
(`AggregateFunctionGroupUniqArray<T>` over
`AggregateFunctionGroupUniqArrayData<T>`) -/

/-- State `AggregateFunctionGroupUniqArrayData<T>`: the per-group state is the
hash set of values. -/
structure GroupUniqArrayData (α : Type) where
  value : List α
  deriving DecidableEq

/-- Fresh, empty per-group state. -/
def emptyData (α : Type) : GroupUniqArrayData α := ⟨[]⟩

/-- Operation `addImpl`: insert the row's value into the set. -/
def addImpl {α : Type} [DecidableEq α] (st : GroupUniqArrayData α) (x : α) :
    GroupUniqArrayData α :=
  ⟨hsInsert st.value x⟩

/-- Add every value of a sequence, in order, starting from the empty state. -/
def addEach {α : Type} [DecidableEq α] (vs : List α) : GroupUniqArrayData α :=
  vs.foldl addImpl (emptyData α)

/-- Operation `merge` (fixed-width): union the right-hand set into the left one
(`set.merge` inserts each element of `rhs`). -/
def mergeFixed {α : Type} [DecidableEq α]
    (place rhs : GroupUniqArrayData α) : GroupUniqArrayData α :=
  ⟨hsInsertMany place.value rhs.value⟩

/-- Output array column: cumulative offsets plus a flat data column
(the narrow slice of `ColumnArray` the aggregator uses). -/
structure ColumnArray (β : Type) where
  offsets : List Nat
  data : List β
  deriving DecidableEq

/-- Operation `insertResultInto` (fixed-width): append one offset entry
(`(offsets.size()==0 ? 0 : offsets.back()) + set.size()`), then append the
set's elements, in iteration order, to the flat data column. -/
def insertResultIntoFixed {α : Type} (st : GroupUniqArrayData α)
    (col : ColumnArray α) : ColumnArray α :=
  { offsets := col.offsets ++ [col.offsets.getLastD 0 + st.value.length]
    data := col.data ++ st.value }

/-! ### Binary codecs
Modelled from the spec: the varint / fixed-width / length-prefixed string
read and write primitives of `DB/IO/WriteHelpers.h` and `ReadHelpers.h` are
not under the given source tree. -/

/-- Modelled from the spec: little-endian base-128 varint encoding of an
unsigned integer (`writeVarUInt`). -/
def varintEncode (n : Nat) : List Nat :=
  if h : n < 128 then [n]
  else (n % 128 + 128) :: varintEncode (n / 128)
  termination_by n
  decreasing_by exact Nat.div_lt_self (by omega) (by omega)

/-- Modelled from the spec: varint decoding (`readVarUInt`); `none` on a
truncated encoding (a continuation byte with no terminator). -/
def varintDecode : List Nat → Option (Nat × List Nat)
  | [] => none
  | b :: rest =>
    if b < 128 then some (b, rest)
    else
      match varintDecode rest with
      | some (n, r) => some ((b - 128) + 128 * n, r)
      | none => none

/-- Modelled from the spec: raw little-endian fixed-width bytes of a numeric
value of byte width `w` (`writeIntBinary`). -/
def intEncode : Nat → Nat → List Nat
  | 0, _ => []
  | w + 1, x => (x % 256) :: intEncode w (x / 256)

/-- Modelled from the spec: fixed-width decoding (`readIntBinary`); `none`
when fewer than `w` bytes remain. -/
def intDecode : Nat → List Nat → Option (Nat × List Nat)
  | 0, buf => some (0, buf)
  | _ + 1, [] => none
  | w + 1, b :: rest => (intDecode w rest).map fun p => (b + 256 * p.1, p.2)

/-- Modelled from the spec: varint-length-prefixed byte string
(`writeStringBinary`). -/
def strEncode (s : List Nat) : List Nat :=
  varintEncode s.length ++ s

/-- Modelled from the spec: length-prefixed string decoding
(`readStringBinaryInto`); `none` on a truncated length or short data. -/
def strDecode (buf : List Nat) : Option (List Nat × List Nat) :=
  match varintDecode buf with
  | none => none
  | some (n, rest) =>
    if n ≤ rest.length then some (rest.take n, rest.drop n) else none

/-! ### Serialization of the fixed-width aggregator -/

/-- Modelled from the spec: `writeVarUInt` appends the varint bytes to the
write buffer. -/
def writeVarUInt (n : Nat) (buf : List Nat) : List Nat := buf ++ varintEncode n

/-- Modelled from the spec: `writeIntBinary` appends the `w` raw
little-endian bytes to the write buffer. -/
def writeIntBinary (w x : Nat) (buf : List Nat) : List Nat := buf ++ intEncode w x

/-- Modelled from the spec: `writeStringBinary` appends the
varint-length-prefixed bytes to the write buffer. -/
def writeStringBinary (s : List Nat) (buf : List Nat) : List Nat := buf ++ strEncode s

/-- Operation `serialize` (fixed-width): `writeVarUInt(set.size())`, then
`writeIntBinary(elem)` for each element in iteration order. -/
def serializeFixed (w : Nat) (st : GroupUniqArrayData Nat) : List Nat :=
  st.value.foldl (fun b e => writeIntBinary w e b) (writeVarUInt st.value.length [])

/-- The loop of the hash table's `read`: read and insert `count` fixed-width
elements.  Modelled from the spec where `HashTable::read` is concerned (the
hash-table header is not under the given source tree); truncation fails. -/
def readFixedElems (w : Nat) : Nat → List Nat → List Nat → Option (List Nat × List Nat)
  | 0, s, buf => some (s, buf)
  | n + 1, s, buf =>
    match intDecode w buf with
    | none => none
    | some (x, rest) => readFixedElems w n (hsInsert s x) rest

/-- Operation `deserialize` (fixed-width): varint count, then `count` fixed-width
elements inserted into a fresh set; `none` on malformed input. -/
def deserializeFixed (w : Nat) (buf : List Nat) :
    Option (GroupUniqArrayData Nat × List Nat) :=
  match varintDecode buf with
  | none => none
  | some (n, rest) => (readFixedElems w n [] rest).map fun p => (⟨p.1⟩, p.2)

/-! ### Generic aggregator
(`AggreagteFunctionGroupUniqArrayGeneric<is_plain_column>` over
`AggreagteFunctionGroupUniqArrayGenericData`).  Keys are byte strings
(`StringRef`); the state set is paired with the arena holding the key
payload bytes. -/

/-- Arena `insert`: append-only copy of the bytes into the pool
(contract from the spec; the arena header is not under the source tree). -/
def arenaInsert (arena : List Nat) (s : List Nat) : List Nat := arena ++ s

/-- Arena `rollback(n)`: reclaim the last `n` bytes (bump-pointer
semantics, valid only right after the matching insert). -/
def arenaRollback (arena : List Nat) (n : Nat) : List Nat :=
  arena.take (arena.length - n)

/-- Operation `addImpl` of the non-plain generic aggregator:
`getSerialization` writes the row's serialized form into the arena
(speculative allocation) and yields the candidate key; `emplace` the
candidate; when it was already present (`!inserted`),
`arena->rollback(str_serialized.size)`. -/
def addImplNonPlain (st : List (List Nat)) (arena : List Nat) (key : List Nat) :
    List (List Nat) × List Nat :=
  let arena1 := arenaInsert arena key
  if key ∈ st then (st, arenaRollback arena1 key.length)
  else (st ++ [key], arena1)

/-- Operation `addImpl` of the plain generic aggregator: `getSerialization` is
`getDataAt` (a zero-copy view, no arena write); `emplace`; only when newly
inserted, `it->data = arena->insert(...)` copies the bytes into the arena. -/
def addImplPlain (st : List (List Nat)) (arena : List Nat) (key : List Nat) :
    List (List Nat) × List Nat :=
  if key ∈ st then (st, arena)
  else (st ++ [key], arenaInsert arena key)

/-- Run the non-plain `addImpl` over a whole key sequence, starting from the
fresh empty state and an empty arena. -/
def addEachNonPlain (keys : List (List Nat)) : List (List Nat) × List Nat :=
  keys.foldl (fun p k => addImplNonPlain p.1 p.2 k) ([], [])

/-- Run the plain `addImpl` over a whole key sequence, starting from the
fresh empty state and an empty arena. -/
def addEachPlain (keys : List (List Nat)) : List (List Nat) × List Nat :=
  keys.foldl (fun p k => addImplPlain p.1 p.2 k) ([], [])

/-- Operation `merge` of the generic aggregator: `emplace` each element of the
right-hand set; when newly inserted, copy its bytes into the destination
arena (`it->data = arena->insert(it->data, it->size)`). -/
def mergeGeneric (cur : List (List Nat)) (arena : List Nat)
    (rhs : List (List Nat)) : List (List Nat) × List Nat :=
  rhs.foldl (fun p e => if e ∈ p.1 then p else (p.1 ++ [e], arenaInsert p.2 e))
    (cur, arena)

/-- Operation `serialize` (generic): `writeVarUInt(set.size())`, then
`writeStringBinary(elem)` for each element in iteration order. -/
def serializeGeneric (st : List (List Nat)) : List Nat :=
  st.foldl (fun b e => writeStringBinary e b) (writeVarUInt st.length [])

/-- The loop of generic `deserialize`:
`set.insert(readStringBinaryInto(*arena, buf))` `count` times; each read
string is copied into the arena; truncation fails. -/
def readStrElems : Nat → List (List Nat) → List Nat → List Nat →
    Option (List (List Nat) × List Nat × List Nat)
  | 0, s, arena, buf => some (s, arena, buf)
  | n + 1, s, arena, buf =>
    match strDecode buf with
    | none => none
    | some (x, rest) => readStrElems n (hsInsert s x) (arenaInsert arena x) rest

/-- Operation `deserialize` (generic): varint count, then `count` length-prefixed
strings inserted into the set with their bytes copied into the arena. -/
def deserializeGeneric (arena : List Nat) (buf : List Nat) :
    Option (List (List Nat) × List Nat × List Nat) :=
  match varintDecode buf with
  | none => none
  | some (n, rest) => readStrElems n [] arena rest

/-- Operation `insertResultInto` (generic): append one offset entry, then
`deserializeAndInsert` each stored key — decoded by the strategy (`dec`)
matching the aggregator's path — onto the flat data column. -/
def insertResultIntoGeneric {β : Type} (dec : List Nat → β)
    (st : List (List Nat)) (col : ColumnArray β) : ColumnArray β :=
  { offsets := col.offsets ++ [col.offsets.getLastD 0 + st.length]
    data := col.data ++ st.map dec }

/-! ### Arena requirement of the generic aggregator -/

/-- Error kinds surfaced by the aggregation framework. -/
inductive AggError where
  | configuration
  | decoding
  deriving DecidableEq

/-- Modelled from the spec: the framework consults
`allocatesMemoryInArena()` (which returns `true` for the generic
aggregator) and supplies an arena; operating without one signals a
configuration error instead of proceeding.  `add` with a checked arena. -/
def addGenericChecked (plain : Bool) (st : List (List Nat))
    (arena : Option (List Nat)) (key : List Nat) :
    Except AggError (List (List Nat) × List Nat) :=
  match arena with
  | none => .error .configuration
  | some a => .ok (if plain then addImplPlain st a key else addImplNonPlain st a key)

/-- Modelled from the spec: generic `merge` with a checked arena. -/
def mergeGenericChecked (st : List (List Nat)) (arena : Option (List Nat))
    (rhs : List (List Nat)) : Except AggError (List (List Nat) × List Nat) :=
  match arena with
  | none => .error .configuration
  | some a => .ok (mergeGeneric st a rhs)

/-- Modelled from the spec: generic `deserialize` with a checked arena;
malformed input surfaces a decoding error. -/
def deserializeGenericChecked (arena : Option (List Nat)) (buf : List Nat) :
    Except AggError (List (List Nat) × List Nat × List Nat) :=
  match arena with
  | none => .error .configuration
  | some a =>
    match deserializeGeneric a buf with
    | none => .error .decoding
    | some r => .ok r

end GroupUniq

namespace COWModel

/-! ### Copy-on-write pointer primitive (`COWPtr` / `COWPtrHelper`)
The heap holds the reference-counted objects; an address (index into the
store) stands for an `intrusive_ptr` target. -/

/-- The set of live copy-on-write objects: object values by address and the
intrusive reference count of each. -/
structure Heap (α : Type) where
  store : List α
  refcount : List Nat
  deriving DecidableEq

/-- Method `COWPtrHelper::clone`: `new Derived(*derived())` — allocate a fresh
object holding a copy of the value at `a`; the returned mutable handle is
its only reference. -/
def clone {α : Type} [Inhabited α] (h : Heap α) (a : Nat) : Nat × Heap α :=
  (h.store.length, ⟨h.store ++ [h.store.getD a default], h.refcount ++ [1]⟩)

/-- Method `COWPtr::mutate`: when `use_count() > 1`, return `derived()->clone()`;
otherwise `assumeMutable()` — another handle to the very same object. -/
def mutate {α : Type} [Inhabited α] (h : Heap α) (a : Nat) : Nat × Heap α :=
  if 1 < h.refcount.getD a 0 then clone h a
  else (a, ⟨h.store, h.refcount.set a (h.refcount.getD a 0 + 1)⟩)

/-- Modification through a mutable handle: overwrite the object at `a`. -/
def setObj {α : Type} (h : Heap α) (a : Nat) (v : α) : Heap α :=
  ⟨h.store.set a v, h.refcount⟩

end COWModel

namespace GroupUniq

/-! ### Lemmas on the set model -/

theorem mem_hsInsert {α : Type} [DecidableEq α] (s : List α) (x y : α) :
    y ∈ hsInsert s x ↔ y ∈ s ∨ y = x := by
  unfold hsInsert
  split
  · constructor
    · exact fun h => Or.inl h
    · rintro (h | rfl)
      · exact h
      · assumption
  · simp

theorem nodup_hsInsert {α : Type} [DecidableEq α] (s : List α) (x : α)
    (h : s.Nodup) : (hsInsert s x).Nodup := by
  unfold hsInsert
  split
  · exact h
  · next hx =>
    simpa [List.nodup_append] using ⟨h, fun hmem => hx hmem⟩

theorem mem_hsInsertMany {α : Type} [DecidableEq α] (s xs : List α) (y : α) :
    y ∈ hsInsertMany s xs ↔ y ∈ s ∨ y ∈ xs := by
  induction xs generalizing s with
  | nil => simp [hsInsertMany]
  | cons a l ih =>
    show y ∈ hsInsertMany (hsInsert s a) l ↔ _
    rw [ih, mem_hsInsert]
    simp
    tauto

theorem nodup_hsInsertMany {α : Type} [DecidableEq α] (s xs : List α)
    (h : s.Nodup) : (hsInsertMany s xs).Nodup := by
  induction xs generalizing s with
  | nil => exact h
  | cons a l ih => exact ih (hsInsert s a) (nodup_hsInsert s a h)

theorem hsInsertMany_eq_append {α : Type} [DecidableEq α] (xs s : List α)
    (hnd : xs.Nodup) (hdisj : ∀ x ∈ xs, x ∉ s) :
    hsInsertMany s xs = s ++ xs := by
  induction xs generalizing s with
  | nil => simp [hsInsertMany]
  | cons a l ih =>
    have ha : a ∉ s := hdisj a (by simp)
    have step : hsInsert s a = s ++ [a] := by simp [hsInsert, ha]
    have hdisj' : ∀ x ∈ l, x ∉ s ++ [a] := by
      intro x hx
      simp only [List.mem_append, List.mem_singleton]
      rintro (hxs | rfl)
      · exact hdisj x (List.mem_cons_of_mem _ hx) hxs
      · exact (List.nodup_cons.mp hnd).1 hx
    show hsInsertMany (hsInsert s a) l = _
    rw [step, ih (s ++ [a]) (List.Nodup.of_cons hnd) hdisj']
    simp

theorem foldl_addImpl_value {α : Type} [DecidableEq α] (l : List α) (s : List α) :
    (l.foldl addImpl ⟨s⟩).value = l.foldl hsInsert s := by
  induction l generalizing s with
  | nil => rfl
  | cons a m ih => exact ih (hsInsert s a)

theorem addEach_value {α : Type} [DecidableEq α] (vs : List α) :
    (addEach vs : GroupUniqArrayData α).value = hsInsertMany [] vs :=
  foldl_addImpl_value vs []

theorem hsInsertMany_length {α : Type} [DecidableEq α] (s xs : List α) :
    (hsInsertMany s xs).length ≤ s.length + xs.length := by
  induction xs generalizing s with
  | nil => simp [hsInsertMany]
  | cons a l ih =>
    have step : (hsInsert s a).length ≤ s.length + 1 := by
      unfold hsInsert
      split
      · omega
      · simp
    have := ih (hsInsert s a)
    show (hsInsertMany (hsInsert s a) l).length ≤ _
    simp only [List.length_cons]
    omega

theorem hsInsert_map {V W : Type} [DecidableEq V] [DecidableEq W]
    (f : V → W) (hf : Function.Injective f) (s : List V) (a : V) :
    hsInsert (s.map f) (f a) = (hsInsert s a).map f := by
  unfold hsInsert
  by_cases hmem : a ∈ s
  · simp [hmem, List.mem_map.mpr ⟨a, hmem, rfl⟩]
  · have hnot : f a ∉ s.map f := by
      simp only [List.mem_map]
      rintro ⟨x, hx, hfx⟩
      exact hmem (hf hfx ▸ hx)
    simp [hmem, hnot]

theorem hsInsertMany_map {V W : Type} [DecidableEq V] [DecidableEq W]
    (f : V → W) (hf : Function.Injective f) (s xs : List V) :
    hsInsertMany (s.map f) (xs.map f) = (hsInsertMany s xs).map f := by
  induction xs generalizing s with
  | nil => rfl
  | cons a l ih =>
    show hsInsertMany (hsInsert (s.map f) (f a)) (l.map f) = _
    rw [hsInsert_map f hf s a]
    exact ih (hsInsert s a)

theorem map_leftInverse {V W : Type} (enc : V → W) (dec : W → V)
    (hli : ∀ u, dec (enc u) = u) (l : List V) :
    (l.map enc).map dec = l := by
  induction l with
  | nil => rfl
  | cons a m ih => simp [hli, ih]

/-! ### Lemmas on the arena and the generic operations -/

theorem arenaRollback_insert (a k : List Nat) :
    arenaRollback (arenaInsert a k) k.length = a := by
  unfold arenaRollback arenaInsert
  have hlen : (a ++ k).length - k.length = a.length := by simp
  rw [hlen, List.take_left]

theorem mergeGeneric_fst (cur : List (List Nat)) (arena : List Nat)
    (rhs : List (List Nat)) :
    (mergeGeneric cur arena rhs).1 = hsInsertMany cur rhs := by
  unfold mergeGeneric hsInsertMany
  induction rhs generalizing cur arena with
  | nil => rfl
  | cons e l ih =>
    simp only [List.foldl_cons]
    by_cases he : e ∈ cur
    · simpa [he, hsInsert] using ih cur arena
    · simpa [he, hsInsert] using ih (cur ++ [e]) (arenaInsert arena e)

theorem addFoldNonPlain (keys : List (List Nat)) (st : List (List Nat))
    (arena : List Nat) (ha : arena = st.flatten) :
    (keys.foldl (fun p k => addImplNonPlain p.1 p.2 k) (st, arena)) =
      (hsInsertMany st keys, (hsInsertMany st keys).flatten) := by
  induction keys generalizing st arena with
  | nil => simp [hsInsertMany, ha]
  | cons k l ih =>
    simp only [List.foldl_cons]
    show (l.foldl _ (addImplNonPlain st arena k)) = _
    by_cases hk : k ∈ st
    · have step : addImplNonPlain st arena k = (st, arena) := by
        simp [addImplNonPlain, hk, ha, arenaRollback_insert]
      rw [step]
      have hins : hsInsert st k = st := by simp [hsInsert, hk]
      show _ = (hsInsertMany (hsInsert st k) l, (hsInsertMany (hsInsert st k) l).flatten)
      rw [hins]
      exact ih st arena ha
    · have step : addImplNonPlain st arena k = (st ++ [k], arena ++ k) := by
        simp [addImplNonPlain, hk, arenaInsert]
      rw [step]
      have hins : hsInsert st k = st ++ [k] := by simp [hsInsert, hk]
      show _ = (hsInsertMany (hsInsert st k) l, (hsInsertMany (hsInsert st k) l).flatten)
      rw [hins]
      exact ih (st ++ [k]) (arena ++ k) (by simp [ha])

theorem addFoldPlain_fst (keys : List (List Nat)) (st : List (List Nat))
    (arena : List Nat) :
    (keys.foldl (fun p k => addImplPlain p.1 p.2 k) (st, arena)).1 =
      hsInsertMany st keys := by
  induction keys generalizing st arena with
  | nil => rfl
  | cons k l ih =>
    simp only [List.foldl_cons]
    by_cases hk : k ∈ st
    · have step : addImplPlain st arena k = (st, arena) := by
        simp [addImplPlain, hk]
      have hins : hsInsert st k = st := by simp [hsInsert, hk]
      rw [step]
      show _ = hsInsertMany (hsInsert st k) l
      rw [hins]
      exact ih st arena
    · have step : addImplPlain st arena k = (st ++ [k], arenaInsert arena k) := by
        simp [addImplPlain, hk]
      have hins : hsInsert st k = st ++ [k] := by simp [hsInsert, hk]
      rw [step]
      show _ = hsInsertMany (hsInsert st k) l
      rw [hins]
      exact ih (st ++ [k]) (arenaInsert arena k)

/-! ### Lemmas on the codecs -/

theorem varintDecode_encode (n : Nat) (tl : List Nat) :
    varintDecode (varintEncode n ++ tl) = some (n, tl) := by
  induction n using Nat.strong_induction_on with
  | _ n ih =>
    rw [varintEncode]
    split
    · next h => simp [varintDecode, h]
    · next h =>
      have hlt : n / 128 < n := Nat.div_lt_self (by omega) (by omega)
      have hbig : ¬ (n % 128 + 128 < 128) := by omega
      simp only [List.cons_append, varintDecode, if_neg hbig, List.append_eq,
        ih _ hlt]
      simp only [Option.some_inj, Prod.mk.injEq, and_true]
      omega

theorem varintDecode_length (buf : List Nat) (n : Nat) (rest : List Nat)
    (h : varintDecode buf = some (n, rest)) : rest.length < buf.length := by
  induction buf generalizing n rest with
  | nil => simp [varintDecode] at h
  | cons b l ih =>
    by_cases hb : b < 128
    · have h' : b = n ∧ l = rest := by simpa [varintDecode, hb] using h
      simp [← h'.2]
    · cases hrec : varintDecode l with
      | none => simp [varintDecode, hb, hrec] at h
      | some p =>
        have h' : b - 128 + 128 * p.1 = n ∧ p.2 = rest := by
          simpa [varintDecode, hb, hrec] using h
        have hlen := ih p.1 p.2 hrec
        rw [h'.2] at hlen
        simp only [List.length_cons]
        omega

theorem intDecode_encode (w x : Nat) (hx : x < 256 ^ w) (tl : List Nat) :
    intDecode w (intEncode w x ++ tl) = some (x, tl) := by
  induction w generalizing x with
  | zero =>
    interval_cases x
    simp [intEncode, intDecode]
  | succ w ih =>
    have hdiv : x / 256 < 256 ^ w := by
      rw [Nat.div_lt_iff_lt_mul (by omega)]
      calc x < 256 ^ (w + 1) := hx
        _ = 256 ^ w * 256 := by ring
    have harith : x % 256 + 256 * (x / 256) = x := by omega
    simp [intEncode, intDecode, ih (x / 256) hdiv, harith]

theorem intDecode_length (w : Nat) (buf : List Nat) (x : Nat) (rest : List Nat)
    (h : intDecode w buf = some (x, rest)) : buf.length = w + rest.length := by
  induction w generalizing buf x rest with
  | zero =>
    simp only [intDecode, Option.some_inj] at h
    cases h
    simp
  | succ w ih =>
    match buf with
    | [] => simp [intDecode] at h
    | b :: l =>
      cases hrec : intDecode w l with
      | none => simp [intDecode, hrec] at h
      | some p =>
        have h' : b + 256 * p.1 = x ∧ p.2 = rest := by
          simpa [intDecode, hrec] using h
        have hlen := ih l p.1 p.2 hrec
        rw [h'.2] at hlen
        simp only [List.length_cons]
        omega

theorem strDecode_encode (s tl : List Nat) :
    strDecode (strEncode s ++ tl) = some (s, tl) := by
  unfold strDecode strEncode
  rw [List.append_assoc, varintDecode_encode]
  simp

theorem strDecode_length (buf : List Nat) (s rest : List Nat)
    (h : strDecode buf = some (s, rest)) : rest.length < buf.length := by
  unfold strDecode at h
  cases hv : varintDecode buf with
  | none => rw [hv] at h; cases h
  | some p =>
    rw [hv] at h
    by_cases hle : p.1 ≤ p.2.length
    · have h' : p.2.take p.1 = s ∧ p.2.drop p.1 = rest := by
        simpa [hle] using h
      have hlen := varintDecode_length buf p.1 p.2 hv
      rw [← h'.2]
      simp only [List.length_drop]
      omega
    · simp [hle] at h

theorem foldl_write_append {α : Type} (f : α → List Nat) (xs : List α)
    (b : List Nat) :
    xs.foldl (fun acc e => acc ++ f e) b = b ++ (xs.map f).flatten := by
  induction xs generalizing b with
  | nil => simp
  | cons a l ih => simp [ih (b ++ f a)]

theorem readFixedElems_encode (w : Nat) (xs : List Nat) (s : List Nat)
    (tl : List Nat) (hb : ∀ x ∈ xs, x < 256 ^ w) :
    readFixedElems w xs.length s ((xs.map (intEncode w)).flatten ++ tl) =
      some (hsInsertMany s xs, tl) := by
  induction xs generalizing s with
  | nil => simp [readFixedElems, hsInsertMany]
  | cons a l ih =>
    have hdec := intDecode_encode w a (hb a (List.mem_cons_self a l))
      ((l.map (intEncode w)).flatten ++ tl)
    show readFixedElems w (l.length + 1) s
        (((intEncode w a ++ (l.map (intEncode w)).flatten) ++ tl)) = _
    rw [List.append_assoc]
    simp only [readFixedElems, hdec]
    exact ih (hsInsert s a) fun x hx => hb x (List.mem_cons_of_mem a hx)

theorem readStrElems_encode (xs : List (List Nat)) (s : List (List Nat))
    (arena : List Nat) (tl : List Nat) :
    readStrElems xs.length s arena ((xs.map strEncode).flatten ++ tl) =
      some (hsInsertMany s xs, arena ++ xs.flatten, tl) := by
  induction xs generalizing s arena with
  | nil => simp [readStrElems, hsInsertMany]
  | cons a l ih =>
    have hdec := strDecode_encode a ((l.map strEncode).flatten ++ tl)
    show readStrElems (l.length + 1) s arena
        (((strEncode a ++ (l.map strEncode).flatten) ++ tl)) = _
    rw [List.append_assoc]
    simp only [readStrElems, hdec]
    rw [ih (hsInsert s a) (arenaInsert arena a)]
    simp [arenaInsert, hsInsertMany]

theorem serializeFixed_eq (w : Nat) (st : GroupUniqArrayData Nat) :
    serializeFixed w st =
      varintEncode st.value.length ++ (st.value.map (intEncode w)).flatten := by
  show st.value.foldl (fun b e => writeIntBinary w e b) (writeVarUInt st.value.length []) = _
  unfold writeIntBinary writeVarUInt
  simpa using foldl_write_append (intEncode w) st.value (varintEncode st.value.length)

theorem serializeGeneric_eq (gst : List (List Nat)) :
    serializeGeneric gst =
      varintEncode gst.length ++ (gst.map strEncode).flatten := by
  show gst.foldl (fun b e => writeStringBinary e b) (writeVarUInt gst.length []) = _
  unfold writeStringBinary writeVarUInt
  simpa using foldl_write_append strEncode gst (varintEncode gst.length)

theorem readFixedElems_some_length (w n : Nat) (s buf : List Nat)
    (r : List Nat × List Nat) (h : readFixedElems w n s buf = some r) :
    n * w + r.2.length ≤ buf.length := by
  induction n generalizing s buf with
  | zero =>
    have : (s, buf) = r := by simpa [readFixedElems] using h
    simp [← this]
  | succ n ih =>
    cases hdec : intDecode w buf with
    | none => simp [readFixedElems, hdec] at h
    | some p =>
      simp only [readFixedElems, hdec] at h
      have hbuf := intDecode_length w buf p.1 p.2 hdec
      have := ih (hsInsert s p.1) p.2 h
      have hmul : (n + 1) * w = n * w + w := by ring
      omega

theorem readStrElems_some_length (n : Nat) (s : List (List Nat))
    (arena buf : List Nat) (r : List (List Nat) × List Nat × List Nat)
    (h : readStrElems n s arena buf = some r) : n ≤ buf.length := by
  induction n generalizing s arena buf with
  | zero => omega
  | succ n ih =>
    cases hdec : strDecode buf with
    | none => simp [readStrElems, hdec] at h
    | some p =>
      simp only [readStrElems, hdec] at h
      have hbuf := strDecode_length buf p.1 p.2 hdec
      have := ih (hsInsert s p.1) (arenaInsert arena p.1) p.2 h
      omega

/-! ### Claim theorems -/

/-- Claim C1: adding every value of a sequence in order and then finalizing
through `insertResultInto` yields exactly the distinct values of the input —
no duplicates, no omissions — and the resulting content does not depend on
the order of the input sequence. -/
theorem groupUniqArray_addEach_finalize {α : Type} [DecidableEq α]
    (vs vs' : List α) (hperm : vs.Perm vs') :
    (insertResultIntoFixed (addEach vs) ⟨[], []⟩).data.Nodup
  ∧ (∀ x, x ∈ (insertResultIntoFixed (addEach vs) ⟨[], []⟩).data ↔ x ∈ vs)
  ∧ (∀ x, x ∈ (insertResultIntoFixed (addEach vs) ⟨[], []⟩).data ↔
        x ∈ (insertResultIntoFixed (addEach vs') ⟨[], []⟩).data) := by
  have hdata : ∀ (ws : List α),
      (insertResultIntoFixed (addEach ws) ⟨[], []⟩).data = hsInsertMany [] ws := by
    intro ws
    simp [insertResultIntoFixed, addEach_value]
  refine ⟨?_, ?_, ?_⟩
  · rw [hdata]
    exact nodup_hsInsertMany [] vs List.nodup_nil
  · intro x
    rw [hdata]
    simp [mem_hsInsertMany]
  · intro x
    rw [hdata, hdata]
    simp only [mem_hsInsertMany, List.not_mem_nil, false_or]
    exact hperm.mem_iff

/-- Witness for C1 at a concrete input. -/
theorem groupUniqArray_addEach_finalize_witness :
    ([1, 2, 2, 3, 1] : List Nat).Perm [2, 1, 3, 1, 2]
  ∧ ((insertResultIntoFixed (addEach [1, 2, 2, 3, 1]) ⟨[], []⟩).data.Nodup
  ∧ (∀ x, x ∈ (insertResultIntoFixed (addEach ([1, 2, 2, 3, 1] : List Nat)) ⟨[], []⟩).data ↔ x ∈ [1, 2, 2, 3, 1])
  ∧ (∀ x, x ∈ (insertResultIntoFixed (addEach ([1, 2, 2, 3, 1] : List Nat)) ⟨[], []⟩).data ↔
        x ∈ (insertResultIntoFixed (addEach [2, 1, 3, 1, 2]) ⟨[], []⟩).data)) :=
  ⟨by decide, groupUniqArray_addEach_finalize [1, 2, 2, 3, 1] [2, 1, 3, 1, 2] (by decide)⟩

/-- Claim C2: for both aggregators, `merge` is a distinct union in content,
commutative in content and associative in content. -/
theorem merge_union_comm_assoc {α : Type} [DecidableEq α]
    (a b c : GroupUniqArrayData α) (ga gb gc : List (List Nat))
    (ar1 ar2 ar3 ar4 : List Nat) :
    (∀ x, x ∈ (mergeFixed a b).value ↔ x ∈ a.value ∨ x ∈ b.value)
  ∧ (∀ x, x ∈ (mergeFixed a b).value ↔ x ∈ (mergeFixed b a).value)
  ∧ (∀ x, x ∈ (mergeFixed (mergeFixed a b) c).value ↔
        x ∈ (mergeFixed a (mergeFixed b c)).value)
  ∧ (∀ k, k ∈ (mergeGeneric ga ar1 gb).1 ↔ k ∈ ga ∨ k ∈ gb)
  ∧ (∀ k, k ∈ (mergeGeneric ga ar1 gb).1 ↔ k ∈ (mergeGeneric gb ar2 ga).1)
  ∧ (∀ k, k ∈ (mergeGeneric (mergeGeneric ga ar1 gb).1 ar2 gc).1 ↔
        k ∈ (mergeGeneric ga ar3 (mergeGeneric gb ar4 gc).1).1) := by
  refine ⟨?_, ?_, ?_, ?_, ?_, ?_⟩ <;>
    intro x <;>
    simp [mergeFixed, mergeGeneric_fst, mem_hsInsertMany] <;>
    tauto

/-- Claim C3: for both aggregators and every reachable state — the set never
holds duplicates, and every fixed-width element fits its byte width —
deserializing the bytes of `serialize` reproduces a state with the same
distinct-value set (here: the very same set, with the whole input consumed);
the empty state is the `Nodup []` instance. -/
theorem serialize_deserialize_roundtrip (w : Nat) (st : GroupUniqArrayData Nat)
    (gst : List (List Nat)) (arena : List Nat)
    (hnd : st.value.Nodup) (hb : ∀ x ∈ st.value, x < 256 ^ w)
    (gnd : gst.Nodup) :
    deserializeFixed w (serializeFixed w st) = some (st, [])
  ∧ deserializeGeneric arena (serializeGeneric gst) =
      some (gst, arena ++ gst.flatten, []) := by
  have hmany : ∀ {β : Type} [DecidableEq β] (xs : List β), xs.Nodup →
      hsInsertMany [] xs = xs := by
    intro β _ xs hxs
    simpa using hsInsertMany_eq_append xs [] hxs (by simp)
  constructor
  · rw [serializeFixed_eq w st]
    have hrd := readFixedElems_encode w st.value [] [] hb
    rw [List.append_nil] at hrd
    simp only [deserializeFixed, varintDecode_encode, hrd]
    rw [hmany st.value hnd]
    rfl
  · rw [serializeGeneric_eq gst]
    have hrd := readStrElems_encode gst [] arena []
    rw [List.append_nil] at hrd
    simp only [deserializeGeneric, varintDecode_encode, hrd]
    rw [hmany gst gnd]

/-- Witness for C3 at a concrete state (and a non-empty arena). -/
theorem serialize_deserialize_roundtrip_witness :
    (⟨[1, 255]⟩ : GroupUniqArrayData Nat).value.Nodup
  ∧ (∀ x ∈ (⟨[1, 255]⟩ : GroupUniqArrayData Nat).value, x < 256 ^ 1)
  ∧ ([[5], [6, 7]] : List (List Nat)).Nodup
  ∧ deserializeFixed 1 (serializeFixed 1 ⟨[1, 255]⟩) = some (⟨[1, 255]⟩, [])
  ∧ deserializeGeneric [9] (serializeGeneric [[5], [6, 7]]) =
      some ([[5], [6, 7]], [9, 5, 6, 7], []) := by
  have h := serialize_deserialize_roundtrip 1 ⟨[1, 255]⟩ [[5], [6, 7]] [9]
    (by decide) (by decide) (by decide)
  exact ⟨by decide, by decide, by decide, h.1, by simpa using h.2⟩

/-- Claim C4: after any sequence of non-plain generic `add` calls the arena
holds exactly the payload bytes of the permanently kept keys (duplicate
attempts are rolled back), the kept keys are exactly the distinct input
keys, and their number never exceeds the number of `add` calls. -/
theorem nonPlain_arena_budget (keys : List (List Nat)) :
    (addEachNonPlain keys).2 = (addEachNonPlain keys).1.flatten
  ∧ (addEachNonPlain keys).1.Nodup
  ∧ (∀ k, k ∈ (addEachNonPlain keys).1 ↔ k ∈ keys)
  ∧ (addEachNonPlain keys).1.length ≤ keys.length := by
  have h := addFoldNonPlain keys [] [] rfl
  unfold addEachNonPlain
  rw [h]
  refine ⟨rfl, nodup_hsInsertMany [] keys List.nodup_nil, ?_, ?_⟩
  · intro k
    simp [mem_hsInsertMany]
  · have := hsInsertMany_length ([] : List (List Nat)) keys
    simpa using this

/-- Claim C6: every generic-aggregator operation that needs an arena —
`add`, `merge`, `deserialize`, on the plain and non-plain paths alike —
signals a configuration error when no arena is supplied, and never signals
that error when one is. -/
theorem generic_requires_arena (plain : Bool) (st rhs : List (List Nat))
    (key : List Nat) (buf : List Nat) (a : List Nat) :
    addGenericChecked plain st none key = .error .configuration
  ∧ mergeGenericChecked st none rhs = .error .configuration
  ∧ deserializeGenericChecked none buf = .error .configuration
  ∧ addGenericChecked plain st (some a) key ≠ .error .configuration
  ∧ mergeGenericChecked st (some a) rhs ≠ .error .configuration
  ∧ deserializeGenericChecked (some a) buf ≠ .error .configuration := by
  refine ⟨rfl, rfl, rfl, by simp [addGenericChecked], by simp [mergeGenericChecked], ?_⟩
  simp only [deserializeGenericChecked]
  cases deserializeGeneric a buf <;> simp

/-- Claim C7: for both aggregators, `deserialize` fails on malformed input —
a truncated count varint, or fewer element/key bytes than the announced
count requires — rather than returning a state built from a prefix. -/
theorem deserialize_malformed (w : Nat) (buf arena : List Nat) :
    (varintDecode buf = none →
        deserializeFixed w buf = none ∧ deserializeGeneric arena buf = none)
  ∧ (∀ n rest, varintDecode buf = some (n, rest) → rest.length < n * w →
        deserializeFixed w buf = none)
  ∧ (∀ n rest, varintDecode buf = some (n, rest) → rest.length < n →
        deserializeGeneric arena buf = none) := by
  refine ⟨?_, ?_, ?_⟩
  · intro h
    constructor
    · simp [deserializeFixed, h]
    · simp [deserializeGeneric, h]
  · intro n rest h hshort
    simp only [deserializeFixed, h]
    cases hrd : readFixedElems w n [] rest with
    | none => rfl
    | some r =>
      have := readFixedElems_some_length w n [] rest r hrd
      omega
  · intro n rest h hshort
    simp only [deserializeGeneric, h]
    cases hrd : readStrElems n [] arena rest with
    | none => rfl
    | some r =>
      have := readStrElems_some_length n [] arena rest r hrd
      omega

/-- Witness for C7: a lone continuation byte (truncated varint) and a count
of 2 followed by a single byte (short data) are both rejected. -/
theorem deserialize_malformed_witness :
    deserializeFixed 1 [200] = none ∧ deserializeGeneric [] [200] = none
  ∧ deserializeFixed 1 [2, 7] = none ∧ deserializeGeneric [] [2, 7] = none := by
  have h1 := (deserialize_malformed 1 [200] []).1 (by decide)
  have h2 := (deserialize_malformed 1 [2, 7] []).2.1 2 [7] (by decide) (by decide)
  have h3 := (deserialize_malformed 1 [2, 7] []).2.2 2 [7] (by decide) (by decide)
  exact ⟨h1.1, h1.2, h2, h3⟩

/-- Claim C8: `serialize` emits the little-endian base-128 varint of the
element count followed by the elements in iteration order: raw little-endian
fixed-width bytes for the fixed-width aggregator, varint-length-prefixed
byte strings for the generic one, with no separators. -/
theorem serialize_format (w : Nat) (st : GroupUniqArrayData Nat)
    (gst : List (List Nat)) :
    serializeFixed w st =
        varintEncode st.value.length ++ (st.value.map (intEncode w)).flatten
  ∧ serializeGeneric gst =
        varintEncode gst.length ++ (gst.map strEncode).flatten :=
  ⟨serializeFixed_eq w st, serializeGeneric_eq gst⟩

/-- Claim C9: over the same logical values, the non-plain generic aggregator
(serialized keys, decoded by `deserializeAndInsertFromArena`) and the plain
generic aggregator (raw-byte keys, re-inserted by `insertData`) finalize to
outputs that decode to the same logical values — here the very same decoded
sequence, namely the distinct input values. -/
theorem plain_nonPlain_content_equivalent {V : Type} [DecidableEq V]
    (encP encS : V → List Nat) (decP decS : List Nat → V)
    (hP : ∀ u, decP (encP u) = u) (hS : ∀ u, decS (encS u) = u)
    (vs : List V) :
    (insertResultIntoGeneric decS (addEachNonPlain (vs.map encS)).1 ⟨[], []⟩).data
      = (insertResultIntoGeneric decP (addEachPlain (vs.map encP)).1 ⟨[], []⟩).data
  ∧ (insertResultIntoGeneric decS (addEachNonPlain (vs.map encS)).1 ⟨[], []⟩).data
      = hsInsertMany [] vs := by
  have hSi : Function.Injective encS := Function.LeftInverse.injective hS
  have hPi : Function.Injective encP := Function.LeftInverse.injective hP
  have hnp : (addEachNonPlain (vs.map encS)).1 = hsInsertMany [] (vs.map encS) := by
    unfold addEachNonPlain
    rw [addFoldNonPlain (vs.map encS) [] [] rfl]
  have hpl : (addEachPlain (vs.map encP)).1 = hsInsertMany [] (vs.map encP) :=
    addFoldPlain_fst (vs.map encP) [] []
  have hdecode : ∀ (enc : V → List Nat) (dec : List Nat → V),
      Function.Injective enc → (∀ u, dec (enc u) = u) →
      (hsInsertMany [] (vs.map enc)).map dec = hsInsertMany [] vs := by
    intro enc dec hinj hli
    have hmap : hsInsertMany [] (vs.map enc) = (hsInsertMany [] vs).map enc := by
      simpa using hsInsertMany_map enc hinj [] vs
    rw [hmap, map_leftInverse enc dec hli]
  constructor
  · show ([] : List V) ++ _ = ([] : List V) ++ _
    rw [List.nil_append, List.nil_append, hnp, hpl,
      hdecode encS decS hSi hS, hdecode encP decP hPi hP]
  · show ([] : List V) ++ _ = _
    rw [List.nil_append, hnp, hdecode encS decS hSi hS]

/-- Witness for C9: booleans under a raw one-byte encoding (plain) and a
tagged two-byte serialization (non-plain). -/
theorem plain_nonPlain_content_equivalent_witness :
    (insertResultIntoGeneric (fun l => l.getD 1 0 == 1)
        (addEachNonPlain ([true, false, true].map fun b => [7, cond b 1 0])).1
        ⟨[], []⟩).data
      = (insertResultIntoGeneric (fun l => l.getD 0 0 == 1)
        (addEachPlain ([true, false, true].map fun b => [cond b 1 0])).1
        ⟨[], []⟩).data :=
  (plain_nonPlain_content_equivalent (fun b => [cond b 1 0])
    (fun b => [7, cond b 1 0]) (fun l => l.getD 0 0 == 1)
    (fun l => l.getD 1 0 == 1) (by decide) (by decide) [true, false, true]).1

/-- Claim C10: for both aggregators `insertResultInto` appends exactly one
offset entry — previous cumulative offset (0 on an empty column) plus the
set size — appends exactly set-size values to the flat data column, and
leaves the pre-existing offsets and data unchanged. -/
theorem insertResultInto_frame {α β : Type} (st : GroupUniqArrayData α)
    (gst : List (List Nat)) (dec : List Nat → β)
    (col : ColumnArray α) (gcol : ColumnArray β) :
    (insertResultIntoFixed st col).offsets =
        col.offsets ++ [col.offsets.getLastD 0 + st.value.length]
  ∧ (insertResultIntoFixed st col).data.take col.data.length = col.data
  ∧ (insertResultIntoFixed st col).data.drop col.data.length = st.value
  ∧ (insertResultIntoFixed st col).data.length = col.data.length + st.value.length
  ∧ (insertResultIntoGeneric dec gst gcol).offsets =
        gcol.offsets ++ [gcol.offsets.getLastD 0 + gst.length]
  ∧ (insertResultIntoGeneric dec gst gcol).data.take gcol.data.length = gcol.data
  ∧ (insertResultIntoGeneric dec gst gcol).data.drop gcol.data.length = gst.map dec
  ∧ (insertResultIntoGeneric dec gst gcol).data.length = gcol.data.length + gst.length := by
  refine ⟨rfl, ?_, ?_, ?_, rfl, ?_, ?_, ?_⟩ <;>
    simp [insertResultIntoFixed, insertResultIntoGeneric, List.take_left,
      List.drop_left]

end GroupUniq

namespace COWModel

/-! ### Lemmas and claim theorem for the copy-on-write primitive -/

theorem getD_append_length {α : Type} (l : List α) (x d : α) :
    (l ++ [x]).getD l.length d = x := by
  induction l with
  | nil => rfl
  | cons b m _ => simp

theorem getD_append_lt {α : Type} (l l2 : List α) (n : Nat) (d : α)
    (hn : n < l.length) : (l ++ l2).getD n d = l.getD n d := by
  induction l generalizing n with
  | nil => simp at hn
  | cons b m ih =>
    cases n with
    | zero => rfl
    | succ k => simpa using ih k (by simpa using hn)

theorem getD_set_ne {α : Type} (l : List α) (i j : Nat) (v d : α)
    (hij : i ≠ j) : (l.set i v).getD j d = l.getD j d := by
  induction l generalizing i j with
  | nil => rfl
  | cons b m ih =>
    cases i with
    | zero =>
      cases j with
      | zero => exact absurd rfl hij
      | succ k => rfl
    | succ i' =>
      cases j with
      | zero => rfl
      | succ k => simpa using ih i' k (by omega)

/-- Claim C5: `mutate()` on a handle whose refcount is 1 returns the very
same object with no copy (the address is unchanged and no object is
created); with refcount ≥ 2 it returns a fresh, distinct object holding an
equal-by-value clone, and writing through the returned handle leaves the
object the original immutable handles see unchanged. -/
theorem cow_mutate_semantics {α : Type} [Inhabited α] (h : Heap α)
    (a : Nat) (v : α) (ha : a < h.store.length) :
    (h.refcount.getD a 0 = 1 →
        (mutate h a).1 = a ∧ ((mutate h a).2).store = h.store)
  ∧ (2 ≤ h.refcount.getD a 0 →
        (mutate h a).1 ≠ a
      ∧ ((mutate h a).2).store.getD (mutate h a).1 default = h.store.getD a default
      ∧ (setObj (mutate h a).2 (mutate h a).1 v).store.getD a default
          = h.store.getD a default) := by
  constructor
  · intro hrc
    have hcond : ¬ 1 < h.refcount.getD a 0 := by omega
    unfold mutate
    rw [if_neg hcond]
    exact ⟨rfl, rfl⟩
  · intro hrc
    have hcond : 1 < h.refcount.getD a 0 := by omega
    have hm : mutate h a = clone h a := by
      unfold mutate
      rw [if_pos hcond]
    rw [hm]
    unfold clone setObj
    refine ⟨by intro hc; simp at hc; omega, ?_, ?_⟩
    · exact getD_append_length h.store (h.store.getD a default) default
    · rw [getD_set_ne _ _ _ _ _ (by simpa using Nat.ne_of_gt ha)]
      exact getD_append_lt h.store [h.store.getD a default] a default ha

/-- Witness for C5 on a concrete two-object heap: address 0 has refcount 1
(reused in place), address 1 has refcount 2 (cloned, original preserved
after a write through the clone). -/
theorem cow_mutate_semantics_witness :
    (mutate (⟨[10, 20], [1, 2]⟩ : Heap Nat) 0).1 = 0
  ∧ ((mutate (⟨[10, 20], [1, 2]⟩ : Heap Nat) 0).2).store = [10, 20]
  ∧ (mutate (⟨[10, 20], [1, 2]⟩ : Heap Nat) 1).1 ≠ 1
  ∧ ((mutate (⟨[10, 20], [1, 2]⟩ : Heap Nat) 1).2).store.getD
      (mutate (⟨[10, 20], [1, 2]⟩ : Heap Nat) 1).1 default = 20
  ∧ (setObj (mutate (⟨[10, 20], [1, 2]⟩ : Heap Nat) 1).2
      (mutate (⟨[10, 20], [1, 2]⟩ : Heap Nat) 1).1 99).store.getD 1 default = 20 := by
  have h1 := (cow_mutate_semantics (⟨[10, 20], [1, 2]⟩ : Heap Nat) 0 99 (by decide)).1 (by decide)
  have h2 := (cow_mutate_semantics (⟨[10, 20], [1, 2]⟩ : Heap Nat) 1 99 (by decide)).2 (by decide)
  exact ⟨h1.1, h1.2, h2.1, h2.2.1, h2.2.2⟩

end COWModel
